import Mathlib

/-!
# Verification of the cron8n repository's specification

Shallow embedding of the data model and operations of the cron8n CLI
(TypeScript) in Lean 4, together with theorems settling the spec's claims.

Strings are modelled as `List Char` where character-level regular-expression
replacements matter, and as `String` elsewhere.  Machine integers do not occur
in the verified fragment (all numbers are list lengths and counts), and
timestamps are treated as opaque values supplied by the caller ("now").
-/

namespace Cron8n

/-! ## Character classes (src/utils/slug.ts, JS regular expressions)

The slug functions use the JS regex classes `\w` (ASCII word characters),
`\s` (JS whitespace) and the literal `-`.  We define them on code points.
-/

/-- JS `\w`: ASCII `[A-Za-z0-9_]` (codes 48-57, 65-90, 97-122, and `_`). -/
def isWordChar (c : Char) : Bool :=
  (48 ≤ c.toNat && c.toNat ≤ 57) || (65 ≤ c.toNat && c.toNat ≤ 90) ||
  (97 ≤ c.toNat && c.toNat ≤ 122) || c == '_'

/-- JS `\s`: tab, LF, VT, FF, CR, space, NBSP, Ogham space, the Unicode
Zs spaces U+2000-U+200A, LS, PS, NNBSP, MMSP, ideographic space and BOM. -/
def isJsSpace (c : Char) : Bool :=
  c.toNat == 9 || c.toNat == 10 || c.toNat == 11 || c.toNat == 12 ||
  c.toNat == 13 || c.toNat == 32 || c.toNat == 160 || c.toNat == 5760 ||
  (8192 ≤ c.toNat && c.toNat ≤ 8202) || c.toNat == 8232 || c.toNat == 8233 ||
  c.toNat == 8239 || c.toNat == 8287 || c.toNat == 12288 || c.toNat == 65279

/-- Lowercase ASCII letters and digits, the alphabet of valid slugs. -/
def isLowerAlnum (c : Char) : Bool :=
  (97 ≤ c.toNat && c.toNat ≤ 122) || (48 ≤ c.toNat && c.toNat ≤ 57)

/-- ASCII alphanumeric characters `[A-Za-z0-9]`. -/
def isAlnum (c : Char) : Bool :=
  (48 ≤ c.toNat && c.toNat ≤ 57) || (65 ≤ c.toNat && c.toNat ≤ 90) ||
  (97 ≤ c.toNat && c.toNat ≤ 122)

/-- `String.prototype.toLowerCase`, restricted to its action on the ASCII
range (the only characters that survive the `\w`-based stripping in
`createSlug`): `A`-`Z` map 32 code points up, everything else is fixed. -/
def jsToLower (c : Char) : Char :=
  if 65 ≤ c.toNat && c.toNat ≤ 90 then Char.ofNat (c.toNat + 32) else c

/-! ## Slug generation (src/utils/slug.ts) -/

/-- `String.prototype.trim`: drop leading and trailing JS whitespace. -/
def trimJs (l : List Char) : List Char :=
  ((l.dropWhile isJsSpace).reverse.dropWhile isJsSpace).reverse

/-- `.replace(/[^\w\s-]/g, '')`: remove every character that is not a word
character, whitespace or hyphen. -/
def stripSpecial (l : List Char) : List Char :=
  l.filter (fun c => isWordChar c || isJsSpace c || c == '-')

/-- Worker for `.replace(/X+/g, r)`: a maximal run of characters satisfying
`p` is replaced by the single character `r`.  The boolean state records
whether we are inside a run whose replacement has already been emitted. -/
def replaceRunsAux (p : Char → Bool) (r : Char) : Bool → List Char → List Char
  | _, [] => []
  | inRun, c :: cs =>
    if p c then
      if inRun then replaceRunsAux p r true cs
      else r :: replaceRunsAux p r true cs
    else c :: replaceRunsAux p r false cs

/-- `.replace(/X+/g, r)` for a character class `X` given by `p`. -/
def replaceRuns (p : Char → Bool) (r : Char) (l : List Char) : List Char :=
  replaceRunsAux p r false l

/-- `.replace(/^-+|-+$/g, '')`: drop the leading and the trailing run of
hyphens. -/
def trimHyphens (l : List Char) : List Char :=
  ((l.dropWhile (fun c => c == '-')).reverse.dropWhile (fun c => c == '-')).reverse

/-- `createSlug` (src/utils/slug.ts): lowercase, trim, strip special
characters, turn space/underscore runs into hyphens, collapse hyphen runs,
trim hyphens. -/
def createSlug (input : List Char) : List Char :=
  trimHyphens
    (replaceRuns (fun c => c == '-') '-'
      (replaceRuns (fun c => isJsSpace c || c == '_') '-'
        (stripSpecial (trimJs (input.map jsToLower)))))

/-- `isValidSlug`'s regex `^[a-z0-9]+(?:-[a-z0-9]+)*$` compiled to an
automaton over the input: the boolean state records whether the current
group already contains at least one character. -/
def slugAux : List Char → Bool → Bool
  | [], inGroup => inGroup
  | c :: cs, inGroup =>
    if isLowerAlnum c then slugAux cs true
    else if c == '-' then (if inGroup then slugAux cs false else false)
    else false

/-- `isValidSlug` (src/utils/slug.ts). -/
def isValidSlug (l : List Char) : Bool := slugAux l false

/-! ## nanoid model (external dependency of src/utils/slug.ts)

Modelled from the nanoid library used by `createUniqueSlug` (the library is
not part of this repository; the repository's own test suite pins the
produced alphabet to `[a-zA-Z0-9_-]`): `nanoid(n)` draws `n` characters
uniformly from its fixed 64-character URL-safe alphabet.  The random source
is modelled as an explicit function from position to alphabet index. -/
def urlAlphabet : List Char :=
  "useandom-26T198340PX75pxJACKVERYMINDBUSHWOLF_GQZbfghjklqvwyzrict".data

/-- One alphabet character, selected by a 6-bit index. -/
def nthAlphabetChar (k : Fin 64) : Char := urlAlphabet.getD k.val ' '

/-- Modelled from the nanoid library's documented default behavior:
`nanoid size` with random source `rand`. -/
def nanoid (rand : Nat → Fin 64) (size : Nat) : List Char :=
  (List.range size).map (fun i => nthAlphabetChar (rand i))

/-- `createUniqueSlug` (src/utils/slug.ts): base slug, hyphen, `nanoid(6)`. -/
def createUniqueSlug (rand : Nat → Fin 64) (input : List Char) : List Char :=
  createSlug input ++ '-' :: nanoid rand 6

/-! ## Registry (src/config/registry.ts)

The registry file holds `{workflows: RegistryEntry[]}`; every operation is
load / transform the array / save.  We embed the pure array transformation;
the timestamp `getISOTimestamp()` is an explicit `now` parameter. -/

/-- `RegistryEntrySchema` (src/config/registry.ts). -/
structure RegistryEntry where
  slug : String
  projectPath : String
  manifestPath : String
  workflowId : Option String
  lastSyncedAt : Option String
deriving Repr, DecidableEq

/-- The argument of `upsertRegistryEntry`: `Omit<RegistryEntry, 'lastSyncedAt'>`. -/
structure RegistryEntryInput where
  slug : String
  projectPath : String
  manifestPath : String
  workflowId : Option String
deriving Repr, DecidableEq

/-- The identity predicate `w.slug === slug && w.projectPath === projectPath`
used by every registry lookup. -/
def idMatch (slug projectPath : String) (w : RegistryEntry) : Bool :=
  w.slug == slug && w.projectPath == projectPath

/-- The entry written by `upsertRegistryEntry`: the input plus
`lastSyncedAt: getISOTimestamp()`. -/
def mkEntry (e : RegistryEntryInput) (now : String) : RegistryEntry :=
  { slug := e.slug, projectPath := e.projectPath, manifestPath := e.manifestPath,
    workflowId := e.workflowId, lastSyncedAt := some now }

/-- `upsertRegistryEntry` (src/config/registry.ts): `findIndex` by identity;
if found, assign the new entry at that index; else `push` it.  List form of
the array mutation: replace the first identity match, else append. -/
def upsertRegistryEntry : List RegistryEntry → RegistryEntryInput → String → List RegistryEntry
  | [], e, now => [mkEntry e now]
  | w :: ws, e, now =>
    if idMatch e.slug e.projectPath w then mkEntry e now :: ws
    else w :: upsertRegistryEntry ws e now

/-- `updateWorkflowId` (src/config/registry.ts): `find` the first identity
match and mutate its `workflowId` and `lastSyncedAt` in place; when nothing
matches, nothing is saved and the registry is unchanged. -/
def updateWorkflowId : List RegistryEntry → String → String → String → String → List RegistryEntry
  | [], _, _, _, _ => []
  | w :: ws, slug, projectPath, workflowId, now =>
    if idMatch slug projectPath w then
      { w with workflowId := some workflowId, lastSyncedAt := some now } :: ws
    else w :: updateWorkflowId ws slug projectPath workflowId now

/-- `removeRegistryEntry` (src/config/registry.ts): filter out every
identity match; save and return `true` only when the length decreased.
Returns the resulting stored registry and the boolean result. -/
def removeRegistryEntry (rs : List RegistryEntry) (slug projectPath : String) :
    List RegistryEntry × Bool :=
  let filtered := rs.filter (fun w => !(idMatch slug projectPath w))
  if filtered.length < rs.length then (filtered, true) else (rs, false)

/-- `getEntry` (src/config/registry.ts): first identity match, if any. -/
def getEntry (rs : List RegistryEntry) (slug projectPath : String) : Option RegistryEntry :=
  rs.find? (idMatch slug projectPath)

/-- The uniqueness invariant of §3 of the spec: at most one entry per
`(slug, projectPath)` identity. -/
def UniqueIds (rs : List RegistryEntry) : Prop :=
  rs.Pairwise (fun a b => ¬(a.slug = b.slug ∧ a.projectPath = b.projectPath))

/-! ## Manifest (src/workflows/manifest.ts) -/

/-- `ManifestSchema` (src/workflows/manifest.ts, lines 7-17). -/
structure Manifest where
  slug : String
  name : String
  createdAt : String
  template : String
  cronExpression : String
  timezone : String
  tags : List String
  lastDeployedWorkflowId : Option String
  lastDeployedAt : Option String
deriving Repr, DecidableEq

/-- The keys declared by `ManifestSchema`, in source order. -/
def manifestSchemaKeys : List String :=
  ["slug", "name", "createdAt", "template", "cronExpression", "timezone",
   "tags", "lastDeployedWorkflowId", "lastDeployedAt"]

/-- `createTags` (src/workflows/manifest.ts). -/
def createTags (slug : String) : List String :=
  ["managed-by:cron8n", "cron8n:" ++ slug]

/-- `updateManifestDeployment` (src/workflows/manifest.ts): the pure core of
load → set `lastDeployedWorkflowId` and `lastDeployedAt` → save; `m` is the
loaded manifest, `now` is `getISOTimestamp()`, and the result is both what
is saved and what is returned. -/
def updateManifestDeployment (m : Manifest) (workflowId now : String) : Manifest :=
  { m with lastDeployedWorkflowId := some workflowId, lastDeployedAt := some now }

/-! ## Cron validation (src/utils/time.ts) -/

/-- `CronInfo` (src/utils/time.ts); run times (JS `Date`s) are modelled as
integer epoch instants. -/
structure CronInfo where
  expression : String
  isValid : Bool
  nextRuns : List Int
  error : Option String
deriving Repr, DecidableEq

/-- Modelled from the spec: the external cron-parser library backing
`parseCron` (not part of this repository).  `parseExpression expr now`
either throws — modelled as `Except.error` with the thrown message — for a
malformed expression, or returns an iterator whose successive `next()`
calls are modelled as the function `i ↦ runs i`. -/
structure CronParserLib where
  parseExpression : String → Int → Except String (Nat → Int)

/-- `parseCron` (src/utils/time.ts): wrap the library call; on success
collect `count` successive `next()` values, on a throw return an invalid
result carrying the message.  Total by construction — it never throws. -/
def parseCron (lib : CronParserLib) (expression : String) (now : Int)
    (count : Nat := 5) : CronInfo :=
  match lib.parseExpression expression now with
  | .ok next =>
    { expression := expression, isValid := true,
      nextRuns := (List.range count).map next, error := none }
  | .error msg =>
    { expression := expression, isValid := false, nextRuns := [],
      error := some msg }

/-! ## Tag reconciliation (src/api/n8nClient.ts)

The client's tag operations are embedded against an abstract server state;
every HTTP request an operation issues is recorded in a trace, so claims
about the number and kind of requests are statements about the trace. -/

/-- A tag resource (`N8nTagSchema`, timestamps omitted — unused). -/
structure N8nTag where
  id : String
  name : String
deriving Repr, DecidableEq

/-- The HTTP requests issued by the tag operations. -/
inductive TagReq where
  | listTags : TagReq
  | createTag (name : String) : TagReq
  | getWorkflow (id : String) : TagReq
  | setTags (id : String) (tagIds : List String) : TagReq
deriving Repr, DecidableEq

/-- Abstract server state seen by the tag operations: the tag collection,
a fresh-id counter for `POST /tags`, and the target workflow's current
tags (`workflow.tags` is optional in `N8nWorkflowSchema`). -/
structure TagServer where
  tags : List N8nTag
  freshId : Nat
  workflowTags : Option (List N8nTag)
deriving Repr, DecidableEq

/-- `getOrCreateTag` (src/api/n8nClient.ts): `listTags()` — one list request
per call — then `find` by name; create only on a miss.  Returns the tag,
the new server state and the request trace. -/
def getOrCreateTag (s : TagServer) (name : String) :
    N8nTag × TagServer × List TagReq :=
  match s.tags.find? (fun t => t.name == name) with
  | some t => (t, s, [.listTags])
  | none =>
    let t : N8nTag := { id := toString s.freshId, name := name }
    (t, { s with tags := s.tags ++ [t], freshId := s.freshId + 1 },
     [.listTags, .createTag name])

/-- The `for (const name of tagNames)` loop of `addTagsToWorkflow`:
resolve every name through `getOrCreateTag`, collecting ids in order. -/
def resolveTagIds (s : TagServer) : List String → List String × TagServer × List TagReq
  | [] => ([], s, [])
  | n :: ns =>
    let (t, s1, tr1) := getOrCreateTag s n
    let (ids, s2, tr2) := resolveTagIds s1 ns
    (t.id :: ids, s2, tr1 ++ tr2)

/-- `[...new Set(l)]`: JS `Set` deduplication, keeping the first occurrence
of each element in insertion order.  `seen` is the set built so far. -/
def insertionDedup (seen : List String) : List String → List String
  | [] => []
  | x :: xs =>
    if x ∈ seen then insertionDedup seen xs
    else x :: insertionDedup (x :: seen) xs

/-- `addTagsToWorkflow` (src/api/n8nClient.ts): resolve each desired name
via `getOrCreateTag`, then `getWorkflow` to read the current tag set, then
`PUT` the deduplicated union of existing and desired ids.  Returns the
final server state, the full request trace, and the tag-id list sent. -/
def addTagsToWorkflow (s : TagServer) (workflowId : String) (tagNames : List String) :
    TagServer × List TagReq × List String :=
  let (tagIds, s1, tr) := resolveTagIds s tagNames
  let existingTagIds := (s1.workflowTags.map (fun ts => ts.map (·.id))).getD []
  let allTagIds := insertionDedup [] (existingTagIds ++ tagIds)
  (s1, tr ++ [.getWorkflow workflowId, .setTags workflowId allTagIds], allTagIds)

/-- Number of `GET /tags` requests in a trace. -/
def countListTags (tr : List TagReq) : Nat :=
  tr.countP (fun r => match r with | .listTags => true | _ => false)

/-! ## Workflow listing (src/api/n8nClient.ts, `listWorkflows`)

The paginated listing is embedded against an abstract page server; page
payloads are opaque strings.  The loop is given fuel because a server whose
cursors cycle makes the source loop run forever; `none` models divergence. -/

/-- One response of `GET /workflows`: `{data, nextCursor}`. -/
structure WPage where
  data : List String
  nextCursor : Option String
deriving Repr, DecidableEq

/-- The page server: the response to a cursorless request, and the response
to each cursor. -/
structure ListServer where
  first : WPage
  next : String → WPage

/-- The response the server gives to a request carrying `cursor`. -/
def fetchPage (srv : ListServer) : Option String → WPage
  | none => srv.first
  | some c => srv.next c

/-- JS truthiness of `options.limit` (`if (options.limit)`): a supplied
limit of `0` is falsy. -/
def limitTruthy : Option Nat → Bool
  | some n => n != 0
  | none => false

/-- The `do ... while (cursor)` loop of `listWorkflows`: request the page
for the current cursor, append its data, stop if a truthy limit was given,
else follow `nextCursor` until the server returns none.  Returns the
accumulated data with the number of requests issued, or `none` when `fuel`
runs out. -/
def listWorkflowsLoop (srv : ListServer) (limit : Option Nat) :
    Option String → List String → Nat → Nat → Option (List String × Nat)
  | _, _, _, 0 => none
  | cursor, acc, calls, fuel + 1 =>
    let page := fetchPage srv cursor
    let acc := acc ++ page.data
    let calls := calls + 1
    if limitTruthy limit then some (acc, calls)
    else match page.nextCursor with
      | none => some (acc, calls)
      | some c => listWorkflowsLoop srv limit (some c) acc calls fuel

/-- `listWorkflows` (src/api/n8nClient.ts): run the loop from the
caller-supplied cursor (`options.cursor`, `none` when absent). -/
def listWorkflows (srv : ListServer) (limit : Option Nat) (cursor : Option String)
    (fuel : Nat) : Option (List String × Nat) :=
  listWorkflowsLoop srv limit cursor [] 0 fuel

/-- The chain of pages reached from a starting cursor when the client
follows `nextCursor` to exhaustion: `Follows srv c ps` says the responses
are exactly `ps`, the last one carrying no cursor. -/
inductive Follows (srv : ListServer) : Option String → List WPage → Prop where
  | last (c : Option String) (h : (fetchPage srv c).nextCursor = none) :
      Follows srv c [fetchPage srv c]
  | step (c : Option String) (c' : String) (ps : List WPage)
      (h : (fetchPage srv c).nextCursor = some c')
      (tail : Follows srv (some c') ps) :
      Follows srv c (fetchPage srv c :: ps)

/-! ## Workflow discovery (src/workflows/discover.ts) -/

/-- A workflow node, restricted to the fields `isCronNode` reads
(`N8nNodeSchema` also carries id, position, parameters, credentials —
none of them inspected here). -/
structure N8nNode where
  name : String
  type : String
deriving Repr, DecidableEq

/-- `CRON_NODE_TYPES` (src/workflows/discover.ts). -/
def CRON_NODE_TYPES : List String :=
  ["n8n-nodes-base.cron", "n8n-nodes-base.scheduleTrigger", "n8n-nodes-base.schedule"]

/-- `toLowerCase` on whole strings (the node-type identifiers are ASCII). -/
def lowerStr (s : String) : List Char := s.data.map jsToLower

/-- JS `String.prototype.includes`: `includes hay needle` is true iff
`needle` occurs as a contiguous substring of `hay`. -/
def includes : List Char → List Char → Bool
  | [], needle => needle.isEmpty
  | c :: t, needle => needle.isPrefixOf (c :: t) || includes t needle

/-- `isCronNode` (src/workflows/discover.ts): bidirectional case-insensitive
substring containment against the known trigger types
(`a.includes(b)` holds iff `b` is a substring of `a`). -/
def isCronNode (node : N8nNode) : Bool :=
  CRON_NODE_TYPES.any (fun t =>
    includes (lowerStr node.type) (lowerStr t) ||
    includes (lowerStr t) (lowerStr node.type))

/-! ## Helper lemmas -/

/-- Every character selected from the nanoid alphabet is in the alphabet. -/
lemma nthAlphabetChar_mem : ∀ k : Fin 64, nthAlphabetChar k ∈ urlAlphabet := by decide

/-- `includes hay needle` decides substring containment. -/
lemma includes_iff (hay needle : List Char) : includes hay needle = true ↔ needle <:+: hay := by
  induction hay with
  | nil => simp [includes, List.isEmpty_iff]
  | cons c t ih =>
    simp only [includes, Bool.or_eq_true, List.isPrefixOf_iff_prefix, ih,
      List.infix_cons_iff]

/-- Unfolding of the registry identity predicate. -/
lemma idMatch_iff {slug projectPath : String} {w : RegistryEntry} :
    idMatch slug projectPath w = true ↔ w.slug = slug ∧ w.projectPath = projectPath := by
  simp [idMatch]

/-- The upserted entry matches the identity it was upserted under. -/
lemma idMatch_mkEntry (e : RegistryEntryInput) (now : String) :
    idMatch e.slug e.projectPath (mkEntry e now) = true := by
  simp [idMatch, mkEntry]

/-- Members of an upserted registry: old entries or the new entry. -/
lemma mem_upsert {rs : List RegistryEntry} {e : RegistryEntryInput} {now : String}
    {b : RegistryEntry} (h : b ∈ upsertRegistryEntry rs e now) :
    b ∈ rs ∨ b = mkEntry e now := by
  induction rs with
  | nil => simpa [upsertRegistryEntry] using h
  | cons w ws ih =>
    by_cases hm : idMatch e.slug e.projectPath w = true
    · simp only [upsertRegistryEntry, if_pos hm, List.mem_cons] at h
      rcases h with h | h
      · exact Or.inr h
      · exact Or.inl (List.mem_cons_of_mem _ h)
    · simp only [upsertRegistryEntry, if_neg hm, List.mem_cons] at h
      rcases h with h | h
      · exact Or.inl (by simp [h])
      · rcases ih h with h' | h'
        · exact Or.inl (List.mem_cons_of_mem _ h')
        · exact Or.inr h'

/-- Upserting preserves the at-most-one-entry-per-identity invariant. -/
lemma upsert_unique {rs : List RegistryEntry} (e : RegistryEntryInput) (now : String)
    (h : UniqueIds rs) : UniqueIds (upsertRegistryEntry rs e now) := by
  induction rs with
  | nil =>
    simp only [upsertRegistryEntry, UniqueIds]
    exact List.pairwise_singleton _ _
  | cons w ws ih =>
    rcases List.pairwise_cons.mp h with ⟨hw, hws⟩
    by_cases hm : idMatch e.slug e.projectPath w = true
    · simp only [upsertRegistryEntry, if_pos hm]
      refine List.pairwise_cons.mpr ⟨?_, hws⟩
      intro b hb hcontra
      obtain ⟨h1, h2⟩ := idMatch_iff.mp hm
      refine hw b hb ⟨?_, ?_⟩
      · rw [h1]; exact hcontra.1
      · rw [h2]; exact hcontra.2
    · simp only [upsertRegistryEntry, if_neg hm]
      refine List.pairwise_cons.mpr ⟨?_, ih hws⟩
      intro b hb
      rcases mem_upsert hb with h' | h'
      · exact hw b h'
      · subst h'
        intro hcontra
        refine hm (idMatch_iff.mpr ⟨?_, ?_⟩)
        · exact hcontra.1
        · exact hcontra.2

/-- Under the invariant, after an upsert exactly the new entry matches the
upserted identity. -/
lemma filter_upsert {rs : List RegistryEntry} (e : RegistryEntryInput) (now : String)
    (h : UniqueIds rs) :
    (upsertRegistryEntry rs e now).filter (idMatch e.slug e.projectPath) = [mkEntry e now] := by
  induction rs with
  | nil =>
    simp only [upsertRegistryEntry]
    rw [List.filter_cons_of_pos (idMatch_mkEntry e now)]
    rfl
  | cons w ws ih =>
    rcases List.pairwise_cons.mp h with ⟨hw, hws⟩
    by_cases hm : idMatch e.slug e.projectPath w = true
    · simp only [upsertRegistryEntry, if_pos hm]
      rw [List.filter_cons_of_pos (idMatch_mkEntry e now)]
      have hnil : ws.filter (idMatch e.slug e.projectPath) = [] := by
        rw [List.filter_eq_nil_iff]
        intro b hb hmb
        obtain ⟨h1, h2⟩ := idMatch_iff.mp hm
        obtain ⟨h3, h4⟩ := idMatch_iff.mp hmb
        exact hw b hb ⟨h1.trans h3.symm, h2.trans h4.symm⟩
      rw [hnil]
    · simp only [upsertRegistryEntry, if_neg hm]
      rw [List.filter_cons_of_neg (by simpa using hm)]
      exact ih hws

/-- `find?` returns the head of the filtered list. -/
lemma find?_eq_head_filter (p : RegistryEntry → Bool) (l : List RegistryEntry) :
    l.find? p = (l.filter p).head? := by
  induction l with
  | nil => rfl
  | cons a t ih =>
    by_cases h : p a = true
    · rw [List.find?_cons_of_pos _ h, List.filter_cons_of_pos h]
      rfl
    · rw [List.find?_cons_of_neg _ (by simpa using h),
        List.filter_cons_of_neg (by simpa using h)]
      exact ih

/-- When no entry matches, upsert appends the new entry at the end. -/
lemma upsert_of_not_found {rs : List RegistryEntry} {e : RegistryEntryInput} {now : String}
    (h : ∀ w ∈ rs, idMatch e.slug e.projectPath w = false) :
    upsertRegistryEntry rs e now = rs ++ [mkEntry e now] := by
  induction rs with
  | nil => rfl
  | cons w ws ih =>
    have hw : idMatch e.slug e.projectPath w = false := h w (List.mem_cons_self w ws)
    simp only [upsertRegistryEntry, hw]
    simp only [Bool.false_eq_true, if_false, List.cons_append, List.cons.injEq, true_and]
    exact ih (fun v hv => h v (List.mem_cons_of_mem _ hv))

/-- When some entry matches, upsert replaces in place: the length is kept. -/
lemma upsert_length_of_found {rs : List RegistryEntry} {e : RegistryEntryInput} {now : String}
    (h : ∃ w ∈ rs, idMatch e.slug e.projectPath w = true) :
    (upsertRegistryEntry rs e now).length = rs.length := by
  induction rs with
  | nil => simp at h
  | cons w ws ih =>
    by_cases hm : idMatch e.slug e.projectPath w = true
    · simp [upsertRegistryEntry, hm]
    · obtain ⟨v, hv, hmv⟩ := h
      rcases List.mem_cons.mp hv with rfl | hv'
      · exact absurd hmv hm
      · simp [upsertRegistryEntry, hm, ih ⟨v, hv', hmv⟩]

/-- Under the invariant at most one entry matches any identity. -/
lemma countP_id_le_one {rs : List RegistryEntry} {slug projectPath : String}
    (h : UniqueIds rs) : rs.countP (idMatch slug projectPath) ≤ 1 := by
  induction rs with
  | nil => simp
  | cons w ws ih =>
    rcases List.pairwise_cons.mp h with ⟨hw, hws⟩
    by_cases hm : idMatch slug projectPath w = true
    · rw [List.countP_cons_of_pos _ _ hm]
      have hz : ws.countP (idMatch slug projectPath) = 0 := by
        rw [List.countP_eq_zero]
        intro b hb hmb
        obtain ⟨h1, h2⟩ := idMatch_iff.mp hm
        obtain ⟨h3, h4⟩ := idMatch_iff.mp hmb
        exact hw b hb ⟨h1.trans h3.symm, h2.trans h4.symm⟩
      omega
    · rw [List.countP_cons_of_neg _ _ (by simpa using hm)]
      exact ih hws

/-- `getOrCreateTag` always issues exactly one tag-list request. -/
lemma countListTags_getOrCreateTag (s : TagServer) (n : String) :
    countListTags (getOrCreateTag s n).2.2 = 1 := by
  unfold getOrCreateTag
  cases s.tags.find? (fun t => t.name == n) <;> simp [countListTags]

/-- `getOrCreateTag` never touches the workflow's tag set. -/
lemma workflowTags_getOrCreateTag (s : TagServer) (n : String) :
    (getOrCreateTag s n).2.1.workflowTags = s.workflowTags := by
  unfold getOrCreateTag
  cases s.tags.find? (fun t => t.name == n) <;> simp

/-- The server's tag names only grow across `getOrCreateTag`. -/
lemma name_mem_getOrCreateTag {s : TagServer} {m : String} (n : String)
    (h : m ∈ s.tags.map N8nTag.name) :
    m ∈ (getOrCreateTag s n).2.1.tags.map N8nTag.name := by
  unfold getOrCreateTag
  cases s.tags.find? (fun t => t.name == n) <;> simp_all

/-- `getOrCreateTag` creates no tag whose name is already on the server. -/
lemma createTag_not_mem_getOrCreateTag {s : TagServer} {m : String} (n : String)
    (h : m ∈ s.tags.map N8nTag.name) :
    TagReq.createTag m ∉ (getOrCreateTag s n).2.2 := by
  rcases hfind : s.tags.find? (fun t => t.name == n) with - | t
  · have hmn : m ≠ n := by
      intro he
      subst he
      simp only [List.mem_map] at h
      obtain ⟨u, hu, hname⟩ := h
      have := List.find?_eq_none.mp hfind u hu
      simp [hname] at this
    simp [getOrCreateTag, hfind, hmn]
  · simp [getOrCreateTag, hfind]

/-- The name-resolution loop issues exactly one list request per name. -/
lemma countListTags_resolveTagIds (names : List String) :
    ∀ s : TagServer, countListTags (resolveTagIds s names).2.2 = names.length := by
  induction names with
  | nil => intro s; rfl
  | cons n ns ih =>
    intro s
    rcases h1 : getOrCreateTag s n with ⟨t, s1, tr1⟩
    rcases h2 : resolveTagIds s1 ns with ⟨ids, s2, tr2⟩
    have e1 : countListTags tr1 = 1 := by
      simpa [h1] using countListTags_getOrCreateTag s n
    have e2 : countListTags tr2 = ns.length := by
      simpa [h2] using ih s1
    simp [resolveTagIds, h1, h2, countListTags, List.countP_append] at e1 e2 ⊢
    omega

/-- The name-resolution loop never touches the workflow's tag set. -/
lemma workflowTags_resolveTagIds (names : List String) :
    ∀ s : TagServer, (resolveTagIds s names).2.1.workflowTags = s.workflowTags := by
  induction names with
  | nil => intro s; rfl
  | cons n ns ih =>
    intro s
    rcases h1 : getOrCreateTag s n with ⟨t, s1, tr1⟩
    rcases h2 : resolveTagIds s1 ns with ⟨ids, s2, tr2⟩
    have e1 : s1.workflowTags = s.workflowTags := by
      simpa [h1] using workflowTags_getOrCreateTag s n
    have e2 : s2.workflowTags = s1.workflowTags := by
      simpa [h2] using ih s1
    simp [resolveTagIds, h1, h2, e2, e1]

/-- The resolution loop creates no tag whose name was already on the
server before the call. -/
lemma createTag_not_mem_resolveTagIds (names : List String) :
    ∀ (s : TagServer) (m : String), m ∈ s.tags.map N8nTag.name →
      TagReq.createTag m ∉ (resolveTagIds s names).2.2 := by
  induction names with
  | nil => intro s m _ hmem; exact absurd hmem (List.not_mem_nil _)
  | cons n ns ih =>
    intro s m h
    rcases h1 : getOrCreateTag s n with ⟨t, s1, tr1⟩
    have hnot1 : TagReq.createTag m ∉ tr1 := by
      simpa [h1] using createTag_not_mem_getOrCreateTag n h
    have hmem1 : m ∈ s1.tags.map N8nTag.name := by
      simpa [h1] using name_mem_getOrCreateTag n h
    rcases h2 : resolveTagIds s1 ns with ⟨ids, s2, tr2⟩
    have hnot2 : TagReq.createTag m ∉ tr2 := by
      simpa [h2] using ih s1 m hmem1
    simp only [resolveTagIds, h1, h2, List.mem_append]
    rintro (hc | hc)
    · exact hnot1 hc
    · exact hnot2 hc

/-- With a falsy limit the listing loop follows the cursor chain to
exhaustion, concatenating every page's data and issuing one request per
page. -/
lemma listWorkflowsLoop_follows {srv : ListServer} {limit : Option Nat}
    (hlim : limitTruthy limit = false) {cursor : Option String} {ps : List WPage}
    (h : Follows srv cursor ps) :
    ∀ (acc : List String) (calls fuel : Nat), ps.length ≤ fuel →
      listWorkflowsLoop srv limit cursor acc calls fuel =
        some (acc ++ (ps.map WPage.data).flatten, calls + ps.length) := by
  induction h with
  | last c hc =>
    intro acc calls fuel hfuel
    cases fuel with
    | zero => simp at hfuel
    | succ f => simp [listWorkflowsLoop, hlim, hc]
  | step c c' ps hc _htail ih =>
    intro acc calls fuel hfuel
    cases fuel with
    | zero => simp at hfuel
    | succ f =>
      have hf : ps.length ≤ f := by
        simpa using hfuel
      simp only [listWorkflowsLoop, hlim, Bool.false_eq_true, if_false, hc]
      rw [ih (acc ++ (fetchPage srv c).data) (calls + 1) f hf]
      simp only [List.map_cons, List.flatten, Option.some.injEq, Prod.mk.injEq,
        List.append_assoc, List.length_cons]
      exact ⟨by trivial, by omega⟩

/-! ### Character-level facts for the slug proofs -/

/-- `Char.ofNat` round-trips on valid (BMP, below the surrogates) code
points. -/
lemma char_toNat_ofNat {n : Nat} (h : n < 55296) : (Char.ofNat n).toNat = n := by
  unfold Char.ofNat
  split
  · rfl
  · next hv => exact absurd (Or.inl h) hv

/-- Lowercasing an ASCII alphanumeric character yields a lowercase
alphanumeric character. -/
lemma isLowerAlnum_jsToLower {c : Char} (h : isAlnum c = true) :
    isLowerAlnum (jsToLower c) = true := by
  simp only [isAlnum, Bool.or_eq_true, Bool.and_eq_true, decide_eq_true_eq] at h
  unfold jsToLower
  by_cases hu : (65 ≤ c.toNat && c.toNat ≤ 90) = true
  · rw [if_pos hu]
    have hu' : 65 ≤ c.toNat ∧ c.toNat ≤ 90 := by simpa using hu
    have hval : (Char.ofNat (c.toNat + 32)).toNat = c.toNat + 32 :=
      char_toNat_ofNat (by omega)
    simp only [isLowerAlnum, hval, Bool.or_eq_true, Bool.and_eq_true, decide_eq_true_eq]
    omega
  · rw [if_neg hu]
    have hu' : ¬(65 ≤ c.toNat ∧ c.toNat ≤ 90) := by simpa using hu
    simp only [isLowerAlnum, Bool.or_eq_true, Bool.and_eq_true, decide_eq_true_eq]
    omega

/-- `jsToLower` never produces an uppercase ASCII letter. -/
lemma jsToLower_not_upper (c : Char) :
    ¬(65 ≤ (jsToLower c).toNat ∧ (jsToLower c).toNat ≤ 90) := by
  unfold jsToLower
  by_cases hu : (65 ≤ c.toNat && c.toNat ≤ 90) = true
  · rw [if_pos hu]
    have hu' : 65 ≤ c.toNat ∧ c.toNat ≤ 90 := by simpa using hu
    have hval : (Char.ofNat (c.toNat + 32)).toNat = c.toNat + 32 :=
      char_toNat_ofNat (by omega)
    rw [hval]
    omega
  · rw [if_neg hu]
    have hu' : ¬(65 ≤ c.toNat ∧ c.toNat ≤ 90) := by simpa using hu
    omega

/-- Lowercase alphanumerics are not JS whitespace. -/
lemma isJsSpace_eq_false_of_lowerAlnum {c : Char} (h : isLowerAlnum c = true) :
    isJsSpace c = false := by
  have h' : (97 ≤ c.toNat ∧ c.toNat ≤ 122) ∨ (48 ≤ c.toNat ∧ c.toNat ≤ 57) := by
    simpa [isLowerAlnum, Bool.or_eq_true, Bool.and_eq_true, decide_eq_true_eq] using h
  rw [Bool.eq_false_iff]
  intro hs
  simp only [isJsSpace, Bool.or_eq_true, Bool.and_eq_true, decide_eq_true_eq,
    beq_iff_eq] at hs
  omega

/-- Lowercase alphanumerics are word characters. -/
lemma isWordChar_of_lowerAlnum {c : Char} (h : isLowerAlnum c = true) :
    isWordChar c = true := by
  have h' : (97 ≤ c.toNat ∧ c.toNat ≤ 122) ∨ (48 ≤ c.toNat ∧ c.toNat ≤ 57) := by
    simpa [isLowerAlnum, Bool.or_eq_true, Bool.and_eq_true, decide_eq_true_eq] using h
  simp only [isWordChar, Bool.or_eq_true, Bool.and_eq_true, decide_eq_true_eq, beq_iff_eq]
  omega

/-- Lowercase alphanumerics are not the hyphen. -/
lemma beq_hyphen_eq_false_of_lowerAlnum {c : Char} (h : isLowerAlnum c = true) :
    (c == '-') = false := by
  rw [beq_eq_false_iff_ne]
  rintro rfl
  exact absurd h (by decide)

/-- Lowercase alphanumerics are not the underscore. -/
lemma beq_underscore_eq_false_of_lowerAlnum {c : Char} (h : isLowerAlnum c = true) :
    (c == '_') = false := by
  rw [beq_eq_false_iff_ne]
  rintro rfl
  exact absurd h (by decide)

/-! ### dropWhile and run-replacement facts -/

/-- An element not satisfying `p` survives `dropWhile p`. -/
lemma mem_dropWhile_of_mem {p : Char → Bool} {l : List Char} {c : Char}
    (hc : c ∈ l) (hp : p c = false) : c ∈ l.dropWhile p := by
  induction l with
  | nil => simp at hc
  | cons a t ih =>
    rw [List.dropWhile_cons]
    split
    · next ha =>
      rcases List.mem_cons.mp hc with rfl | h
      · rw [hp] at ha
        exact absurd ha (by simp)
      · exact ih h
    · exact hc

/-- `dropWhile` only removes elements. -/
lemma mem_of_mem_dropWhile {p : Char → Bool} {l : List Char} {c : Char}
    (h : c ∈ l.dropWhile p) : c ∈ l :=
  (List.dropWhile_sublist p).subset h

/-- The head surviving `dropWhile p` does not satisfy `p`. -/
lemma head?_dropWhile {p : Char → Bool} {l : List Char} {c : Char}
    (h : (l.dropWhile p).head? = some c) : p c = false := by
  induction l with
  | nil => simp at h
  | cons a t ih =>
    rw [List.dropWhile_cons] at h
    split at h
    · exact ih h
    · next ha =>
      have : a = c := by simpa using h
      subst this
      simpa using ha

/-- When `dropWhile` leaves something, the last element is untouched. -/
lemma getLast?_dropWhile {p : Char → Bool} {l : List Char}
    (h : l.dropWhile p ≠ []) : (l.dropWhile p).getLast? = l.getLast? := by
  induction l with
  | nil => simp at h
  | cons a t ih =>
    rw [List.dropWhile_cons] at h ⊢
    by_cases ha : p a = true
    · rw [if_pos ha] at h ⊢
      rw [ih h]
      have ht : t ≠ [] := by
        intro he
        rw [he] at h
        simp at h
      cases t with
      | nil => exact absurd rfl ht
      | cons b t' => rw [List.getLast?_cons_cons]
    · rw [if_neg ha]

/-- `dropWhile` preserves chain conditions. -/
lemma chain'_dropWhile {R : Char → Char → Prop} {p : Char → Bool} {l : List Char}
    (h : List.Chain' R l) : List.Chain' R (l.dropWhile p) := by
  induction l with
  | nil => simp
  | cons a t ih =>
    rw [List.dropWhile_cons]
    split
    · exact ih (List.Chain'.tail h)
    · exact h

/-- Elements of a run replacement: the replacement character, or original
characters outside the replaced class. -/
lemma mem_replaceRunsAux {p : Char → Bool} {r : Char} :
    ∀ {l : List Char} {b : Bool} {c : Char}, c ∈ replaceRunsAux p r b l →
      c = r ∨ (c ∈ l ∧ p c = false) := by
  intro l
  induction l with
  | nil => intro b c hc; simp [replaceRunsAux] at hc
  | cons a t ih =>
    intro b c hc
    simp only [replaceRunsAux] at hc
    by_cases ha : p a = true
    · rw [if_pos ha] at hc
      have hrec : c ∈ replaceRunsAux p r true t ∨ c = r := by
        cases b with
        | true =>
          rw [if_pos rfl] at hc
          exact Or.inl hc
        | false =>
          rw [if_neg (by simp)] at hc
          rcases List.mem_cons.mp hc with rfl | h
          · exact Or.inr rfl
          · exact Or.inl h
      rcases hrec with h | rfl
      · rcases ih h with h' | ⟨h1, h2⟩
        · exact Or.inl h'
        · exact Or.inr ⟨List.mem_cons_of_mem _ h1, h2⟩
      · exact Or.inl rfl
    · rw [if_neg ha] at hc
      rcases List.mem_cons.mp hc with rfl | h
      · refine Or.inr ⟨List.mem_cons_self _ _, ?_⟩
        simpa using ha
      · rcases ih h with h' | ⟨h1, h2⟩
        · exact Or.inl h'
        · exact Or.inr ⟨List.mem_cons_of_mem _ h1, h2⟩

/-- An element outside the replaced class survives a run replacement. -/
lemma mem_replaceRunsAux_of_mem {p : Char → Bool} {r : Char} :
    ∀ {l : List Char} {b : Bool} {c : Char}, c ∈ l → p c = false →
      c ∈ replaceRunsAux p r b l := by
  intro l
  induction l with
  | nil => intro b c hc _; simp at hc
  | cons a t ih =>
    intro b c hc hp
    simp only [replaceRunsAux]
    by_cases ha : p a = true
    · rw [if_pos ha]
      have hct : c ∈ t := by
        rcases List.mem_cons.mp hc with rfl | h
        · rw [hp] at ha
          exact absurd ha (by simp)
        · exact h
      cases b with
      | true =>
        rw [if_pos rfl]
        exact ih hct hp
      | false =>
        rw [if_neg (by simp)]
        exact List.mem_cons_of_mem _ (ih hct hp)
    · rw [if_neg ha]
      rcases List.mem_cons.mp hc with rfl | h
      · exact List.mem_cons_self _ _
      · exact List.mem_cons_of_mem _ (ih h hp)

/-- In the in-run state the next emitted character is outside the class. -/
lemma head?_replaceRunsAux_true {p : Char → Bool} {r : Char} :
    ∀ {l : List Char} {c : Char}, (replaceRunsAux p r true l).head? = some c →
      p c = false := by
  intro l
  induction l with
  | nil => intro c hc; simp [replaceRunsAux] at hc
  | cons a t ih =>
    intro c hc
    simp only [replaceRunsAux] at hc
    by_cases ha : p a = true
    · rw [if_pos ha] at hc
      simp only [if_true] at hc
      exact ih hc
    · rw [if_neg ha] at hc
      have : a = c := by simpa using hc
      subst this
      simpa using ha

/-- A run replacement never emits two adjacent characters of the replaced
class. -/
lemma chain'_replaceRunsAux {p : Char → Bool} {r : Char} :
    ∀ (l : List Char) (b : Bool),
      List.Chain' (fun x y => ¬(p x = true ∧ p y = true)) (replaceRunsAux p r b l) := by
  intro l
  induction l with
  | nil => intro b; simp [replaceRunsAux]
  | cons a t ih =>
    intro b
    simp only [replaceRunsAux]
    by_cases ha : p a = true
    · rw [if_pos ha]
      cases b with
      | true =>
        rw [if_pos rfl]
        exact ih true
      | false =>
        rw [if_neg (by simp)]
        rw [List.chain'_cons']
        refine ⟨?_, ih true⟩
        intro y hy hcontra
        have := head?_replaceRunsAux_true (Option.mem_def.mp hy)
        rw [hcontra.2] at this
        exact absurd this (by simp)
    · rw [if_neg ha]
      rw [List.chain'_cons']
      refine ⟨?_, ih false⟩
      intro y hy hcontra
      rw [hcontra.1] at ha
      exact absurd ha (by simp)

/-! ### End-trimming facts -/

/-- Characters of a both-ends trim come from the original list. -/
lemma trimEnds_subset {p : Char → Bool} {l : List Char} {c : Char}
    (h : c ∈ ((l.dropWhile p).reverse.dropWhile p).reverse) : c ∈ l := by
  rw [List.mem_reverse] at h
  have h1 := mem_of_mem_dropWhile h
  rw [List.mem_reverse] at h1
  exact mem_of_mem_dropWhile h1

/-- A character outside the trimmed class survives a both-ends trim. -/
lemma trimEnds_mem {p : Char → Bool} {l : List Char} {c : Char}
    (hc : c ∈ l) (hp : p c = false) :
    c ∈ ((l.dropWhile p).reverse.dropWhile p).reverse := by
  rw [List.mem_reverse]
  apply mem_dropWhile_of_mem _ hp
  rw [List.mem_reverse]
  exact mem_dropWhile_of_mem hc hp

/-- A both-ends trim preserves chain conditions (for symmetric relations). -/
lemma trimEnds_chain' {R : Char → Char → Prop} {p : Char → Bool} {l : List Char}
    (h : List.Chain' R l) (hsym : ∀ a b, R a b → R b a) :
    List.Chain' R (((l.dropWhile p).reverse.dropWhile p).reverse) := by
  have e1 : List.Chain' R (l.dropWhile p) := chain'_dropWhile h
  have e2 : List.Chain' R ((l.dropWhile p).reverse) :=
    List.chain'_reverse.mpr (List.Chain'.imp (fun a b hab => hsym a b hab) e1)
  have e3 : List.Chain' R ((l.dropWhile p).reverse.dropWhile p) := chain'_dropWhile e2
  exact List.chain'_reverse.mpr (List.Chain'.imp (fun a b hab => hsym a b hab) e3)

/-- The head after a both-ends trim is outside the trimmed class. -/
lemma trimEnds_head {p : Char → Bool} {l : List Char} {c : Char}
    (h : (((l.dropWhile p).reverse.dropWhile p).reverse).head? = some c) :
    p c = false := by
  rw [List.head?_reverse] at h
  have hne : (l.dropWhile p).reverse.dropWhile p ≠ [] := by
    intro he
    rw [he] at h
    simp at h
  rw [getLast?_dropWhile hne, List.getLast?_reverse] at h
  exact head?_dropWhile h

/-- The last character after a both-ends trim is outside the trimmed
class. -/
lemma trimEnds_last {p : Char → Bool} {l : List Char} {c : Char}
    (h : (((l.dropWhile p).reverse.dropWhile p).reverse).getLast? = some c) :
    p c = false := by
  rw [List.getLast?_reverse] at h
  exact head?_dropWhile h

/-- Sufficient conditions for acceptance by the slug automaton: every
character is a lowercase alphanumeric or a hyphen, no two hyphens are
adjacent, the last character is not a hyphen, and — when a group has not
been opened yet — the first character exists and is alphanumeric. -/
lemma slugAux_of :
    ∀ (l : List Char) (b : Bool),
      (∀ c ∈ l, isLowerAlnum c = true ∨ c = '-') →
      List.Chain' (fun a b => ¬(a = '-' ∧ b = '-')) l →
      (∀ h, l.getLast? = some h → h ≠ '-') →
      (b = false → ∃ h, l.head? = some h ∧ isLowerAlnum h = true) →
      slugAux l b = true := by
  intro l
  induction l with
  | nil =>
    intro b _ _ _ hhead
    cases b with
    | false =>
      obtain ⟨h, hh, -⟩ := hhead rfl
      simp at hh
    | true => rfl
  | cons c cs ih =>
    intro b hall hchain hlast hhead
    by_cases hc : isLowerAlnum c = true
    · have hred : slugAux (c :: cs) b = slugAux cs true := by
        simp [slugAux, hc]
      rw [hred]
      apply ih true
      · exact fun u hu => hall u (List.mem_cons_of_mem _ hu)
      · exact List.Chain'.tail hchain
      · intro h hh
        apply hlast h
        cases cs with
        | nil => simp at hh
        | cons e t =>
          rw [List.getLast?_cons_cons]
          exact hh
      · intro hcontra
        exact absurd hcontra (by simp)
    · have hc' : c = '-' := by
        rcases hall c (List.mem_cons_self c cs) with h | h
        · exact absurd h hc
        · exact h
      subst hc'
      cases b with
      | false =>
        obtain ⟨h, hh, hal⟩ := hhead rfl
        have he : '-' = h := by simpa using hh
        rw [← he] at hal
        exact absurd hal (by decide)
      | true =>
        have hred : slugAux ('-' :: cs) true = slugAux cs false := by
          simp [slugAux, isLowerAlnum]
        rw [hred]
        cases cs with
        | nil => exact absurd rfl (hlast '-' rfl)
        | cons e t =>
          apply ih false
          · exact fun u hu => hall u (List.mem_cons_of_mem _ hu)
          · exact List.Chain'.tail hchain
          · intro h hh
            apply hlast h
            rw [List.getLast?_cons_cons]
            exact hh
          · intro _
            refine ⟨e, rfl, ?_⟩
            have hrel := (List.chain'_cons.mp hchain).1
            have hene : e ≠ '-' := fun heq => hrel ⟨rfl, heq⟩
            rcases hall e (List.mem_cons_of_mem _ (List.mem_cons_self e t)) with h | h
            · exact h
            · exact absurd h hene

/-- The lowercased image of an alphanumeric input character survives every
stage of `createSlug`. -/
lemma createSlug_mem_jsToLower {x : List Char} {c : Char} (hc : c ∈ x)
    (hal : isAlnum c = true) : jsToLower c ∈ createSlug x := by
  have hd : isLowerAlnum (jsToLower c) = true := isLowerAlnum_jsToLower hal
  have h0 : jsToLower c ∈ x.map jsToLower := List.mem_map_of_mem jsToLower hc
  have h1 : jsToLower c ∈ trimJs (x.map jsToLower) := by
    unfold trimJs
    exact trimEnds_mem h0 (isJsSpace_eq_false_of_lowerAlnum hd)
  have h2 : jsToLower c ∈ stripSpecial (trimJs (x.map jsToLower)) := by
    unfold stripSpecial
    rw [List.mem_filter]
    exact ⟨h1, by simp [isWordChar_of_lowerAlnum hd]⟩
  have h3 : jsToLower c ∈ replaceRuns (fun u => isJsSpace u || u == '_') '-'
      (stripSpecial (trimJs (x.map jsToLower))) := by
    unfold replaceRuns
    refine mem_replaceRunsAux_of_mem h2 ?_
    simp [isJsSpace_eq_false_of_lowerAlnum hd, beq_underscore_eq_false_of_lowerAlnum hd]
  have h4 : jsToLower c ∈ replaceRuns (fun u => u == '-') '-'
      (replaceRuns (fun u => isJsSpace u || u == '_') '-'
        (stripSpecial (trimJs (x.map jsToLower)))) := by
    unfold replaceRuns
    exact mem_replaceRunsAux_of_mem h3 (beq_hyphen_eq_false_of_lowerAlnum hd)
  unfold createSlug trimHyphens
  exact trimEnds_mem h4 (beq_hyphen_eq_false_of_lowerAlnum hd)

/-- Every character of a generated slug is a lowercase alphanumeric or a
hyphen. -/
lemma createSlug_chars {x : List Char} :
    ∀ u ∈ createSlug x, isLowerAlnum u = true ∨ u = '-' := by
  intro u hu
  unfold createSlug trimHyphens at hu
  have hu4 := trimEnds_subset hu
  unfold replaceRuns at hu4
  rcases mem_replaceRunsAux hu4 with h | ⟨hu3, hnh⟩
  · exact Or.inr h
  rcases mem_replaceRunsAux hu3 with h | ⟨hu2, hns⟩
  · subst h
    simp at hnh
  unfold stripSpecial at hu2
  obtain ⟨hu1, hcond⟩ := List.mem_filter.mp hu2
  have hsp : isJsSpace u = false := by
    cases hju : isJsSpace u
    · rfl
    · rw [hju] at hns
      simp at hns
  have hup : (u == '_') = false := by
    cases hju : (u == '_')
    · rfl
    · rw [hju] at hns
      simp at hns
  have hcond' : (isWordChar u || isJsSpace u || u == '-') = true := hcond
  have hword : isWordChar u = true := by
    cases hw : isWordChar u
    · rw [hw, hsp, hnh] at hcond'
      simp at hcond'
    · rfl
  have hnotupper : ¬(65 ≤ u.toNat ∧ u.toNat ≤ 90) := by
    unfold trimJs at hu1
    have hu0 := trimEnds_subset hu1
    obtain ⟨d, -, rfl⟩ := List.mem_map.mp hu0
    exact jsToLower_not_upper d
  have hnu : u ≠ '_' := beq_eq_false_iff_ne.mp hup
  simp only [isWordChar, Bool.or_eq_true, Bool.and_eq_true, decide_eq_true_eq,
    beq_iff_eq] at hword
  rcases hword with ((h | h) | h) | h
  · left
    simp only [isLowerAlnum, Bool.or_eq_true, Bool.and_eq_true, decide_eq_true_eq]
    omega
  · exact absurd h hnotupper
  · left
    simp only [isLowerAlnum, Bool.or_eq_true, Bool.and_eq_true, decide_eq_true_eq]
    omega
  · exact absurd h hnu

/-- A generated slug never contains two adjacent hyphens. -/
lemma createSlug_chain' {x : List Char} :
    List.Chain' (fun a b => ¬(a = '-' ∧ b = '-')) (createSlug x) := by
  have h4c : List.Chain' (fun a b => ¬(a = '-' ∧ b = '-'))
      (replaceRuns (fun u => u == '-') '-'
        (replaceRuns (fun u => isJsSpace u || u == '_') '-'
          (stripSpecial (trimJs (x.map jsToLower))))) := by
    unfold replaceRuns
    refine List.Chain'.imp ?_ (chain'_replaceRunsAux _ false)
    intro a b hab h
    exact hab ⟨by simp [h.1], by simp [h.2]⟩
  unfold createSlug trimHyphens
  exact trimEnds_chain' h4c (fun a b hab h => hab ⟨h.2, h.1⟩)

/-- A generated slug never starts with a hyphen. -/
lemma createSlug_head {x : List Char} {h : Char}
    (hh : (createSlug x).head? = some h) : (h == '-') = false := by
  unfold createSlug trimHyphens at hh
  exact trimEnds_head (p := fun c => c == '-') hh

/-- A generated slug never ends with a hyphen. -/
lemma createSlug_last {x : List Char} {h : Char}
    (hh : (createSlug x).getLast? = some h) : (h == '-') = false := by
  unfold createSlug trimHyphens at hh
  exact trimEnds_last (p := fun c => c == '-') hh

/-! ## Theorems for the claims -/

/-- C2, counterexample: the manifest schema has no `updatedAt` key, so
`updateManifestDeployment` cannot set one — at a concrete manifest it
writes exactly the two deployment fields and nothing else. -/
theorem claim_C2_counterexample :
    updateManifestDeployment ⟨"daily-backup", "Daily", "2024-01-01T00:00:00.000Z",
        "webhook", "0 0 * * *", "UTC", ["managed-by:cron8n", "cron8n:daily-backup"],
        none, none⟩ "wf-1" "2024-02-02T00:00:00.000Z" =
      ⟨"daily-backup", "Daily", "2024-01-01T00:00:00.000Z",
        "webhook", "0 0 * * *", "UTC", ["managed-by:cron8n", "cron8n:daily-backup"],
        some "wf-1", some "2024-02-02T00:00:00.000Z"⟩ ∧
    "updatedAt" ∉ manifestSchemaKeys :=
  ⟨rfl, by decide⟩

/-- C2 (amended): `updateManifestDeployment` sets `lastDeployedWorkflowId`
to the given id and `lastDeployedAt` to the current time on the loaded
manifest and saves exactly that manifest; every other field is unchanged,
and the manifest schema declares no `updatedAt` key, so none is set. -/
theorem claim_C2 (m : Manifest) (workflowId now : String) :
    (updateManifestDeployment m workflowId now).lastDeployedWorkflowId = some workflowId ∧
    (updateManifestDeployment m workflowId now).lastDeployedAt = some now ∧
    (updateManifestDeployment m workflowId now).slug = m.slug ∧
    (updateManifestDeployment m workflowId now).name = m.name ∧
    (updateManifestDeployment m workflowId now).createdAt = m.createdAt ∧
    (updateManifestDeployment m workflowId now).template = m.template ∧
    (updateManifestDeployment m workflowId now).cronExpression = m.cronExpression ∧
    (updateManifestDeployment m workflowId now).timezone = m.timezone ∧
    (updateManifestDeployment m workflowId now).tags = m.tags ∧
    "updatedAt" ∉ manifestSchemaKeys :=
  ⟨rfl, rfl, rfl, rfl, rfl, rfl, rfl, rfl, rfl, by decide⟩

/-- C2, witness: the deployment fields of a concretely updated manifest. -/
theorem claim_C2_witness :
    (updateManifestDeployment ⟨"s", "n", "c", "t", "e", "z", [], none, none⟩
      "wf" "ts").lastDeployedWorkflowId = some "wf" ∧
    (updateManifestDeployment ⟨"s", "n", "c", "t", "e", "z", [], none, none⟩
      "wf" "ts").lastDeployedAt = some "ts" :=
  have h := claim_C2 ⟨"s", "n", "c", "t", "e", "z", [], none, none⟩ "wf" "ts"
  ⟨h.1, h.2.1⟩

/-- C5, counterexample: with a random source that keeps selecting alphabet
index 11 the suffix is `TTTTTT`, which is not made of lowercase letters and
digits. -/
theorem claim_C5_counterexample :
    createUniqueSlug (fun _ => (11 : Fin 64)) "a".data = "a-TTTTTT".data ∧
    "TTTTTT".data.all isLowerAlnum = false := by
  decide

/-- C5 (amended): `createUniqueSlug` returns `createSlug input` followed by
a hyphen and a 6-character suffix drawn from nanoid's 64-character URL
alphabet `[A-Za-z0-9_-]` — a 64^6-space suffix that may contain uppercase
letters, underscores and hyphens, not a lowercase-alphanumeric one. -/
theorem claim_C5 (rand : Nat → Fin 64) (input : List Char) :
    createUniqueSlug rand input = createSlug input ++ '-' :: nanoid rand 6 ∧
    (nanoid rand 6).length = 6 ∧
    urlAlphabet.length = 64 ∧
    ∀ c ∈ nanoid rand 6, c ∈ urlAlphabet := by
  refine ⟨rfl, by simp [nanoid], by decide, ?_⟩
  intro c hc
  simp only [nanoid, List.mem_map, List.mem_range] at hc
  obtain ⟨i, -, rfl⟩ := hc
  exact nthAlphabetChar_mem (rand i)

/-- C5, witness: the amended description evaluated at a concrete random
source and input. -/
theorem claim_C5_witness :
    createUniqueSlug (fun _ => (0 : Fin 64)) "ab".data =
      createSlug "ab".data ++ '-' :: nanoid (fun _ => (0 : Fin 64)) 6 ∧
    (nanoid (fun _ => (0 : Fin 64)) 6).length = 6 :=
  have h := claim_C5 (fun _ => (0 : Fin 64)) "ab".data
  ⟨h.1, h.2.1⟩

/-- C9: for every non-empty input containing at least one ASCII
alphanumeric character, the generated slug passes `isValidSlug`. -/
theorem claim_C9 (x : List Char) (_hx : x ≠ []) (halnum : ∃ c ∈ x, isAlnum c = true) :
    isValidSlug (createSlug x) = true := by
  obtain ⟨c, hcx, hcal⟩ := halnum
  have hmem : jsToLower c ∈ createSlug x := createSlug_mem_jsToLower hcx hcal
  have hne : createSlug x ≠ [] := List.ne_nil_of_mem hmem
  unfold isValidSlug
  apply slugAux_of
  · exact createSlug_chars
  · exact createSlug_chain'
  · intro h hh
    exact beq_eq_false_iff_ne.mp (createSlug_last hh)
  · intro _
    cases hcs : createSlug x with
    | nil => exact absurd hcs hne
    | cons a t =>
      have hhead : (createSlug x).head? = some a := by
        rw [hcs]
        rfl
      refine ⟨a, rfl, ?_⟩
      have hanh : a ≠ '-' := beq_eq_false_iff_ne.mp (createSlug_head hhead)
      have hamem : a ∈ createSlug x := by
        rw [hcs]
        exact List.mem_cons_self a t
      rcases createSlug_chars a hamem with h | h
      · exact h
      · exact absurd h hanh

/-- C9, witness: a representative input with mixed case, punctuation and
spaces produces a valid slug. -/
theorem claim_C9_witness : isValidSlug (createSlug "My Cron Job #1 (daily)".data) = true :=
  claim_C9 "My Cron Job #1 (daily)".data (by decide) ⟨'M', by decide, by decide⟩

/-- C10: `isCronNode` is true exactly when the lowercased node type and one
of the three known trigger identifiers contain each other as a substring in
either direction; consequently any node whose lowercased type is a
substring of a known identifier is accepted — in particular every node
whose type is the empty string. -/
theorem claim_C10 (node : N8nNode) :
    (isCronNode node = true ↔ ∃ t ∈ CRON_NODE_TYPES,
        lowerStr t <:+: lowerStr node.type ∨ lowerStr node.type <:+: lowerStr t) ∧
    ((∃ t ∈ CRON_NODE_TYPES, lowerStr node.type <:+: lowerStr t) →
        isCronNode node = true) ∧
    (node.type = "" → isCronNode node = true) := by
  have hiff : isCronNode node = true ↔ ∃ t ∈ CRON_NODE_TYPES,
      lowerStr t <:+: lowerStr node.type ∨ lowerStr node.type <:+: lowerStr t := by
    simp only [isCronNode, List.any_eq_true, Bool.or_eq_true, includes_iff]
  refine ⟨hiff, ?_, ?_⟩
  · rintro ⟨t, ht, h⟩
    exact hiff.mpr ⟨t, ht, Or.inr h⟩
  · intro h
    refine hiff.mpr ⟨"n8n-nodes-base.cron", by decide, Or.inr ?_⟩
    rw [h]
    exact List.nil_infix

/-- C10, witness: a node with an empty type string is classified as a cron
node. -/
theorem claim_C10_witness : isCronNode ⟨"Some Trigger", ""⟩ = true :=
  (claim_C10 ⟨"Some Trigger", ""⟩).2.2 rfl

/-- C4: against any library behavior satisfying the spec's contract for
cron-parser (valid expressions yield strictly-future, strictly-increasing
successive runs; malformed ones throw with a non-empty message),
`parseCron` returns `isValid` true with exactly `count` strictly-future
ascending timestamps on the valid side, and `isValid` false with no
timestamps and a non-empty error on the malformed side; it is a total
function, so it never throws. -/
theorem claim_C4 (lib : CronParserLib) (expression : String) (now : Int) (count : Nat) :
    (∀ next, lib.parseExpression expression now = .ok next →
      (∀ i, now < next i) → (∀ i j, i < j → next i < next j) →
      (parseCron lib expression now count).isValid = true ∧
      (parseCron lib expression now count).nextRuns.length = count ∧
      (∀ t ∈ (parseCron lib expression now count).nextRuns, now < t) ∧
      (parseCron lib expression now count).nextRuns.Pairwise (· < ·)) ∧
    (∀ msg, lib.parseExpression expression now = .error msg → msg ≠ "" →
      (parseCron lib expression now count).isValid = false ∧
      (parseCron lib expression now count).nextRuns = [] ∧
      ∃ e, (parseCron lib expression now count).error = some e ∧ e ≠ "") := by
  constructor
  · intro next hok hfut hmono
    simp only [parseCron, hok]
    refine ⟨by trivial, by simp, ?_, ?_⟩
    · intro t ht
      simp only [List.mem_map, List.mem_range] at ht
      obtain ⟨i, -, rfl⟩ := ht
      exact hfut i
    · exact List.Pairwise.map next (fun a b h => hmono a b h) (List.pairwise_lt_range count)
  · intro msg herr hne
    simp only [parseCron, herr]
    exact ⟨trivial, trivial, msg, rfl, hne⟩

/-- A sample library behavior used to witness C4. -/
def cronLibSample : CronParserLib :=
  ⟨fun e _now =>
    if e = "* * * * *" then .ok (fun i => 60 * ((i : Int) + 1))
    else .error "Invalid cron expression"⟩

/-- C4, witness: the contract instantiated at a concrete valid and a
concrete malformed expression. -/
theorem claim_C4_witness :
    ((parseCron cronLibSample "* * * * *" 0 5).isValid = true ∧
     (parseCron cronLibSample "* * * * *" 0 5).nextRuns.length = 5) ∧
    ((parseCron cronLibSample "60 * * * *" 0 5).isValid = false ∧
     (parseCron cronLibSample "60 * * * *" 0 5).nextRuns = []) := by
  have hvalid := (claim_C4 cronLibSample "* * * * *" 0 5).1
    (fun i => 60 * ((i : Int) + 1)) rfl
    (by intro i; show (0 : Int) < 60 * ((i : Int) + 1); positivity)
    (by intro i j h; show 60 * ((i : Int) + 1) < 60 * ((j : Int) + 1); omega)
  have hbad := (claim_C4 cronLibSample "60 * * * *" 0 5).2
    "Invalid cron expression" rfl (by decide)
  exact ⟨⟨hvalid.1, hvalid.2.1⟩, ⟨hbad.1, hbad.2.1⟩⟩

/-- C6: upsert preserves the at-most-one-entry-per-identity invariant;
an absent identity is appended, a present one replaced in place (length
kept); upserting twice with the same identity leaves exactly one entry for
it, carrying the second call's fields, and `getEntry` then returns that
entry, whose `lastSyncedAt` is the (non-empty) stamp of the second call. -/
theorem claim_C6 (rs : List RegistryEntry) (e e2 : RegistryEntryInput) (now now2 : String)
    (hinv : UniqueIds rs) (_hslug : e2.slug = e.slug) (_hpp : e2.projectPath = e.projectPath)
    (hnow : now2 ≠ "") :
    UniqueIds (upsertRegistryEntry rs e now) ∧
    (getEntry rs e.slug e.projectPath = none →
      upsertRegistryEntry rs e now = rs ++ [mkEntry e now]) ∧
    (getEntry rs e.slug e.projectPath ≠ none →
      (upsertRegistryEntry rs e now).length = rs.length) ∧
    (upsertRegistryEntry (upsertRegistryEntry rs e now) e2 now2).filter
      (idMatch e2.slug e2.projectPath) = [mkEntry e2 now2] ∧
    getEntry (upsertRegistryEntry (upsertRegistryEntry rs e now) e2 now2)
      e2.slug e2.projectPath = some (mkEntry e2 now2) ∧
    ∃ t, (mkEntry e2 now2).lastSyncedAt = some t ∧ t ≠ "" := by
  have huniq1 : UniqueIds (upsertRegistryEntry rs e now) := upsert_unique e now hinv
  have hfil : (upsertRegistryEntry (upsertRegistryEntry rs e now) e2 now2).filter
      (idMatch e2.slug e2.projectPath) = [mkEntry e2 now2] :=
    filter_upsert e2 now2 huniq1
  refine ⟨huniq1, ?_, ?_, hfil, ?_, now2, rfl, hnow⟩
  · intro hnone
    refine upsert_of_not_found ?_
    intro w hw
    have := List.find?_eq_none.mp hnone w hw
    simpa using this
  · intro hsome
    rcases Option.ne_none_iff_exists'.mp hsome with ⟨v, hv⟩
    have hvmem := List.find?_some hv
    have hvmem' := List.mem_of_find?_eq_some hv
    exact upsert_length_of_found ⟨v, hvmem', hvmem⟩
  · rw [getEntry, find?_eq_head_filter, hfil]
    rfl

/-- C6, witness: upserting the same `(slug, projectPath)` twice into an
empty registry and reading it back. -/
theorem claim_C6_witness :
    getEntry (upsertRegistryEntry (upsertRegistryEntry []
        ⟨"daily", "/proj", "m.json", none⟩ "t1") ⟨"daily", "/proj", "m2.json", some "wf"⟩ "t2")
      "daily" "/proj" = some (mkEntry ⟨"daily", "/proj", "m2.json", some "wf"⟩ "t2") ∧
    (upsertRegistryEntry (upsertRegistryEntry []
        ⟨"daily", "/proj", "m.json", none⟩ "t1") ⟨"daily", "/proj", "m2.json", some "wf"⟩ "t2").filter
      (idMatch "daily" "/proj") = [mkEntry ⟨"daily", "/proj", "m2.json", some "wf"⟩ "t2"] :=
  have h := claim_C6 [] ⟨"daily", "/proj", "m.json", none⟩
    ⟨"daily", "/proj", "m2.json", some "wf"⟩ "t1" "t2" List.Pairwise.nil rfl rfl (by decide)
  ⟨h.2.2.2.2.1, h.2.2.2.1⟩

/-- C7, counterexample: on a registry holding two entries with the same
`(slug, projectPath)` identity, `removeRegistryEntry` returns true but
removes both entries — the count drops from 2 to 0, not by exactly one. -/
theorem claim_C7_counterexample :
    (removeRegistryEntry [⟨"s", "p", "m", none, none⟩, ⟨"s", "p", "m", none, none⟩]
        "s" "p").2 = true ∧
    (removeRegistryEntry [⟨"s", "p", "m", none, none⟩, ⟨"s", "p", "m", none, none⟩]
        "s" "p").1.length = 0 ∧
    ([⟨"s", "p", "m", none, none⟩, ⟨"s", "p", "m", none, none⟩] :
        List RegistryEntry).length - 1 ≠ 0 := by
  decide

/-- C7 (amended): on an identity with no matching entry,
`removeRegistryEntry` returns false and leaves the registry unchanged; on
an identity with a matching entry it returns true and removes every
matching entry — so under the at-most-one-entry-per-identity invariant the
entry count decreases by exactly one. -/
theorem claim_C7 (rs : List RegistryEntry) (slug projectPath : String) :
    ((∀ w ∈ rs, idMatch slug projectPath w = false) →
      removeRegistryEntry rs slug projectPath = (rs, false)) ∧
    ((∃ w ∈ rs, idMatch slug projectPath w = true) →
      (removeRegistryEntry rs slug projectPath).2 = true ∧
      (removeRegistryEntry rs slug projectPath).1 =
        rs.filter (fun w => !(idMatch slug projectPath w)) ∧
      (UniqueIds rs → (removeRegistryEntry rs slug projectPath).1.length + 1 = rs.length)) := by
  constructor
  · intro h
    have hfil : rs.filter (fun w => !(idMatch slug projectPath w)) = rs :=
      List.filter_eq_self.mpr (fun w hw => by simp [h w hw])
    simp [removeRegistryEntry, hfil]
  · intro h
    have hpos : 0 < rs.countP (idMatch slug projectPath) := List.countP_pos_iff.mpr h
    have hlenfil : (rs.filter (fun w => !(idMatch slug projectPath w))).length =
        rs.countP (fun w => !(idMatch slug projectPath w)) :=
      (List.countP_eq_length_filter _ rs).symm
    have hsum : rs.length = rs.countP (idMatch slug projectPath) +
        rs.countP (fun w => !(idMatch slug projectPath w)) := by
      simpa using List.length_eq_countP_add_countP (l := rs) (p := idMatch slug projectPath)
    have hlt : (rs.filter (fun w => !(idMatch slug projectPath w))).length < rs.length := by
      omega
    refine ⟨?_, ?_, ?_⟩
    · simp [removeRegistryEntry, hlt]
    · simp [removeRegistryEntry, hlt]
    · intro huniq
      have hle := @countP_id_le_one rs slug projectPath huniq
      simp only [removeRegistryEntry, hlt, if_pos]
      omega

/-- C7, witness: removing a missing identity, then an existing one from a
singleton registry. -/
theorem claim_C7_witness :
    removeRegistryEntry [⟨"s", "p", "m", none, none⟩] "x" "p" =
      ([⟨"s", "p", "m", none, none⟩], false) ∧
    (removeRegistryEntry [⟨"s", "p", "m", none, none⟩] "s" "p").2 = true ∧
    (removeRegistryEntry [⟨"s", "p", "m", none, none⟩] "s" "p").1.length + 1 = 1 :=
  have h1 := (claim_C7 [⟨"s", "p", "m", none, none⟩] "x" "p").1 (by decide)
  have h2 := (claim_C7 [⟨"s", "p", "m", none, none⟩] "s" "p").2
    ⟨⟨"s", "p", "m", none, none⟩, by decide, by decide⟩
  ⟨h1, h2.1, h2.2.2 (List.pairwise_singleton _ _)⟩

/-- C8: `updateWorkflowId` on an absent identity is a silent no-op leaving
the registry unchanged; on a present identity it rewrites exactly the first
matching entry's `workflowId` and `lastSyncedAt`, keeping its other fields
and every other entry intact. -/
theorem claim_C8 (rs l1 l2 : List RegistryEntry) (w : RegistryEntry)
    (slug projectPath workflowId now : String) :
    ((∀ v ∈ rs, idMatch slug projectPath v = false) →
      updateWorkflowId rs slug projectPath workflowId now = rs) ∧
    (rs = l1 ++ w :: l2 → (∀ v ∈ l1, idMatch slug projectPath v = false) →
      idMatch slug projectPath w = true →
      updateWorkflowId rs slug projectPath workflowId now =
        l1 ++ { w with workflowId := some workflowId, lastSyncedAt := some now } :: l2 ∧
      { w with workflowId := some workflowId, lastSyncedAt := some now } =
        RegistryEntry.mk w.slug w.projectPath w.manifestPath (some workflowId) (some now)) := by
  constructor
  · intro h
    induction rs with
    | nil => rfl
    | cons v vs ih =>
      have hv : idMatch slug projectPath v = false := h v (List.mem_cons_self v vs)
      simp only [updateWorkflowId, hv, Bool.false_eq_true, if_false, List.cons.injEq, true_and]
      exact ih (fun u hu => h u (List.mem_cons_of_mem _ hu))
  · intro hrs h1 hw
    subst hrs
    refine ⟨?_, rfl⟩
    induction l1 with
    | nil => simp [updateWorkflowId, hw]
    | cons a t ih =>
      have ha : idMatch slug projectPath a = false := h1 a (List.mem_cons_self a t)
      simp only [List.cons_append, updateWorkflowId, ha, Bool.false_eq_true, if_false,
        List.cons.injEq, true_and]
      exact ih (fun u hu => h1 u (List.mem_cons_of_mem _ hu))

/-- C8, witness: updating a present identity rewrites only the matching
entry; updating an absent identity changes nothing. -/
theorem claim_C8_witness :
    updateWorkflowId [⟨"a", "p", "m1", none, none⟩, ⟨"s", "p", "m2", none, none⟩]
        "s" "p" "wf" "t" =
      [⟨"a", "p", "m1", none, none⟩, ⟨"s", "p", "m2", some "wf", some "t"⟩] ∧
    updateWorkflowId [⟨"a", "p", "m1", none, none⟩] "s" "p" "wf" "t" =
      [⟨"a", "p", "m1", none, none⟩] :=
  have h := (claim_C8 [⟨"a", "p", "m1", none, none⟩, ⟨"s", "p", "m2", none, none⟩]
    [⟨"a", "p", "m1", none, none⟩] [] ⟨"s", "p", "m2", none, none⟩
    "s" "p" "wf" "t").2 rfl (by decide) (by decide)
  have h0 := (claim_C8 [⟨"a", "p", "m1", none, none⟩] [] [] ⟨"s", "p", "m2", none, none⟩
    "s" "p" "wf" "t").1 (by decide)
  ⟨h.1, h0⟩

/-- C1, counterexample: adding two missing tag names to a workflow against
an empty tag collection issues two `GET /tags` requests — one per
`getOrCreateTag` call — not the single shared listing the claim states. -/
theorem claim_C1_counterexample :
    countListTags (addTagsToWorkflow ⟨[], 0, some []⟩ "w" ["a", "b"]).2.1 = 2 ∧
    (2 : Nat) ≠ 1 := by
  decide

/-- C1 (amended): `addTagsToWorkflow` issues one tag-list request per
desired tag name (not a single listing shared across names), creates a tag
only when it is missing from the listing its own request returned — in
particular it never creates a tag whose name was already on the server —
then fetches the workflow's current tag set and sets back the
first-occurrence-ordered, deduplicated union of the existing tag ids and
the desired tag ids. -/
theorem claim_C1 (s : TagServer) (workflowId : String) (tagNames : List String) :
    countListTags (addTagsToWorkflow s workflowId tagNames).2.1 = tagNames.length ∧
    (∀ n ∈ tagNames, n ∈ s.tags.map N8nTag.name →
      TagReq.createTag n ∉ (addTagsToWorkflow s workflowId tagNames).2.1) ∧
    (addTagsToWorkflow s workflowId tagNames).2.1 =
      (resolveTagIds s tagNames).2.2 ++
        [TagReq.getWorkflow workflowId,
         TagReq.setTags workflowId (addTagsToWorkflow s workflowId tagNames).2.2] ∧
    (addTagsToWorkflow s workflowId tagNames).2.2 =
      insertionDedup []
        ((s.workflowTags.map (fun ts => ts.map N8nTag.id)).getD [] ++
          (resolveTagIds s tagNames).1) := by
  rcases hres : resolveTagIds s tagNames with ⟨ids, s1, tr⟩
  have hwt : s1.workflowTags = s.workflowTags := by
    simpa [hres] using workflowTags_resolveTagIds tagNames s
  refine ⟨?_, ?_, ?_, ?_⟩
  · have hc : countListTags tr = tagNames.length := by
      simpa [hres] using countListTags_resolveTagIds tagNames s
    simp [addTagsToWorkflow, hres, countListTags, List.countP_append] at hc ⊢
    omega
  · intro n _hn hmem
    have hnot : TagReq.createTag n ∉ tr := by
      simpa [hres] using createTag_not_mem_resolveTagIds tagNames s n hmem
    simp only [addTagsToWorkflow, hres, List.mem_append]
    rintro (hc | hc)
    · exact hnot hc
    · simp at hc
  · simp [addTagsToWorkflow, hres]
  · simp [addTagsToWorkflow, hres, hwt]

/-- C1, witness: against a server already holding tag `a` and a workflow
tagged with ids `5` and `9`, adding names `a` and `b` issues two list
requests and never re-creates `a`. -/
theorem claim_C1_witness :
    countListTags (addTagsToWorkflow ⟨[⟨"5", "a"⟩], 7, some [⟨"5", "a"⟩, ⟨"9", "x"⟩]⟩
      "w" ["a", "b"]).2.1 = 2 ∧
    TagReq.createTag "a" ∉ (addTagsToWorkflow ⟨[⟨"5", "a"⟩], 7, some [⟨"5", "a"⟩, ⟨"9", "x"⟩]⟩
      "w" ["a", "b"]).2.1 :=
  have h := claim_C1 ⟨[⟨"5", "a"⟩], 7, some [⟨"5", "a"⟩, ⟨"9", "x"⟩]⟩ "w" ["a", "b"]
  ⟨h.1, h.2.1 "a" (by decide) (by decide)⟩

/-- C3, counterexample: a supplied limit of `0` is falsy in the source's
`if (options.limit)` check, so pagination is NOT disabled — against a
server reporting a next cursor the client issues two requests, not one. -/
theorem claim_C3_counterexample :
    listWorkflows ⟨⟨["p0"], some "c1"⟩, fun _ => ⟨["p1"], none⟩⟩ (some 0) none 5 =
      some (["p0", "p1"], 2) ∧ (2 : Nat) ≠ 1 := by
  decide

/-- C3 (amended): if a nonzero limit is supplied, pagination is disabled
entirely and exactly one page request is issued regardless of any
server-reported next cursor; otherwise — no limit, or the falsy limit `0`
— the client follows the returned cursor until the server reports none and
returns the concatenation of all pages' data in order, one request per
page. -/
theorem claim_C3 (srv : ListServer) (cursor : Option String) (limit : Option Nat)
    (n fuel : Nat) (ps : List WPage) :
    (limit = some n → n ≠ 0 → 1 ≤ fuel →
      listWorkflows srv limit cursor fuel = some ((fetchPage srv cursor).data, 1)) ∧
    (limitTruthy limit = false → Follows srv cursor ps → ps.length ≤ fuel →
      listWorkflows srv limit cursor fuel =
        some ((ps.map WPage.data).flatten, ps.length)) := by
  constructor
  · rintro rfl hn hfuel
    cases fuel with
    | zero => omega
    | succ f => simp [listWorkflows, listWorkflowsLoop, limitTruthy, hn]
  · intro hlim hf hfuel
    simpa [listWorkflows] using listWorkflowsLoop_follows hlim hf [] 0 fuel hfuel

/-- C3, witness: one request with limit 1 despite a reported cursor; two
requests and concatenated data for an unlimited two-page listing. -/
theorem claim_C3_witness :
    listWorkflows ⟨⟨["p0"], some "c1"⟩, fun _ => ⟨["p1"], none⟩⟩ (some 1) none 1 =
      some (["p0"], 1) ∧
    listWorkflows ⟨⟨["p0"], some "c1"⟩, fun _ => ⟨["p1"], none⟩⟩ none none 2 =
      some (["p0", "p1"], 2) := by
  have h1 := (claim_C3 ⟨⟨["p0"], some "c1"⟩, fun _ => ⟨["p1"], none⟩⟩ none (some 1)
    1 1 []).1 rfl (by decide) (by decide)
  have hfollows : Follows ⟨⟨["p0"], some "c1"⟩, fun _ => ⟨["p1"], none⟩⟩ none
      [⟨["p0"], some "c1"⟩, ⟨["p1"], none⟩] :=
    Follows.step none "c1" [⟨["p1"], none⟩] rfl (Follows.last (some "c1") rfl)
  have h2 := (claim_C3 ⟨⟨["p0"], some "c1"⟩, fun _ => ⟨["p1"], none⟩⟩ none none
    0 2 [⟨["p0"], some "c1"⟩, ⟨["p1"], none⟩]).2 rfl hfollows (by decide)
  exact ⟨h1, by simpa using h2⟩

end Cron8n
